import Mathlib

/-!
Verification of the Typst text-mobject module (`typst_mobject.py`).

The development shallowly embeds the pure string-processing and
reassembly logic of the module:

* `stripStr`, `modifySpecialStrings`, `removeStrayBraces`,
  `getModifiedExpression` embed `SingleStringMathTypst`'s normalizer;
* `breakUpTypstStrings`, `breakUpBySubstrings` and `segmentAndRender`
  embed `MathTypst`'s segmentation and submobject reassembly, with the
  external renderer abstracted as a function from the normalized string
  to the flat list of leaf path objects it produces;
* `fontSizeGet` / `fontSizeSet` embed the `font_size` property
  (`Except` models a raised Python exception);
* `fadeAllButStr` embeds the string branch of
  `BulletedList.fade_all_but`.

Python `str` values are modelled as Lean `String`s, and the character
level operations are spelled out over `List Char` so that every
definition is executable and every concrete instance can be settled by
`decide`.  Machine floats of the original are modelled as exact
rationals.
-/

namespace TypstMobject

/-! ## Character and string utilities (models of Python `str` methods) -/

/-- The ASCII whitespace characters recognised by Python's `str.strip`
and `str.split()` (space, tab, newline, carriage return, vertical tab,
form feed).  Unicode whitespace is not modelled. -/
def isPySpace (c : Char) : Bool :=
  c = ' ' || c = '\t' || c = '\n' || c = '\r' || c = Char.ofNat 11 || c = Char.ofNat 12

/-- Python `s.strip()` on the character list: drop whitespace from both ends. -/
def stripChars (l : List Char) : List Char :=
  ((l.dropWhile isPySpace).reverse.dropWhile isPySpace).reverse

/-- Python `s.strip()`. -/
def stripStr (s : String) : String :=
  String.mk (stripChars s.data)

/-- Python `s.startswith(pat)`. -/
def pyStartsWith (s pat : String) : Bool :=
  pat.data.isPrefixOf s.data

/-- Python `s.endswith(pat)`. -/
def pyEndsWith (s pat : String) : Bool :=
  pat.data.reverse.isPrefixOf s.data.reverse

/-- Python `pat in s` (substring occurrence test) on character lists. -/
def containsSub (pat : List Char) : List Char → Bool
  | [] => pat.isEmpty
  | c :: rest => pat.isPrefixOf (c :: rest) || containsSub pat rest

/-- The six delimiter characters handled by `_remove_stray_braces`. -/
def isDelim (c : Char) : Bool :=
  c = '{' || c = '}' || c = '(' || c = ')' || c = '[' || c = ']'

/-- Python `s.count("\" + d)`: the number of non-overlapping
occurrences of the two-character pattern backslash-`d`, scanning left to
right.  This is the "escaped delimiter" count used by
`_remove_stray_braces`. -/
def cntEsc (d : Char) : List Char → Nat
  | [] => 0
  | [_] => 0
  | b :: c :: rest =>
    if b = '\\' && c = d then 1 + cntEsc d rest else cntEsc d (c :: rest)

/-- The unescaped-delimiter count of `_remove_stray_braces`:
`typst.count(d) - typst.count("\" + d)` (Python `int` arithmetic). -/
def ub (d : Char) (l : List Char) : Int :=
  (l.count d : Int) - (cntEsc d l : Int)

/-- Fuelled worker for Python `s.replace(pat, rep)`: replaces every
non-overlapping occurrence of `pat`, scanning left to right.  The fuel
is always instantiated with the length of the scanned list, which makes
the definition structurally recursive and hence evaluable by `decide`. -/
def replaceAux (pat rep : List Char) : Nat → List Char → List Char
  | _, [] => []
  | 0, l => l
  | fuel + 1, c :: rest =>
    if pat.isPrefixOf (c :: rest) && !pat.isEmpty then
      rep ++ replaceAux pat rep fuel (List.drop (pat.length - 1) rest)
    else
      c :: replaceAux pat rep fuel rest

/-- Python `s.replace(pat, rep)`. -/
def replaceAllStr (s pat rep : String) : String :=
  String.mk (replaceAux pat.data rep.data s.data.length s.data)

/-! ## The markup normalizer (`_modify_special_strings`, `_remove_stray_braces`) -/

/-- One delimiter-repair pass of `_remove_stray_braces` for the pair
`(o, c)`: compute the unescaped open and close counts, then prepend
the missing opens (when closes exceed opens) or append the missing
closes (when opens exceed closes).  The original repairs one delimiter
per loop iteration while updating local counters, which amounts to
adding the difference in one block. -/
def balanceOne (o c : Char) (s : List Char) : List Char :=
  if ub o s < ub c s then List.replicate (ub c s - ub o s).toNat o ++ s
  else if ub c s < ub o s then s ++ List.replicate (ub o s - ub c s).toNat c
  else s

/-- `SingleStringMathTypst._remove_stray_braces`: repair `{}` first,
then `()` on the result, then `[]` on that result. -/
def removeStrayBraces (s : String) : String :=
  String.mk (balanceOne '[' ']' (balanceOne '(' ')' (balanceOne '{' '}' s.data)))

/-- `SingleStringMathTypst._modify_special_strings`: strip, append a
filler space after dangling operators, substitute `#h(1)` for the empty
fragment, expand every `"\ "` occurrence when the fragment starts with
one, and finally repair stray delimiters. -/
def modifySpecialStrings (typst0 : String) : String :=
  let t := stripStr typst0
  let t :=
    if t = "overline" || t = "overline\x7b" || t = "sqrt" || t = "sqrt(" ||
        pyEndsWith t "_" || pyEndsWith t "^" || pyEndsWith t "dot" then
      t ++ " "
    else t
  let t := if t = "" then "#h(1)" else t
  let t :=
    if pyStartsWith t "\\ " then replaceAllStr t "\\ " "\\ #h(1cm) \\ " else t
  removeStrayBraces t

/-- `SingleStringMathTypst._get_modified_expression`: strip, then apply
`_modify_special_strings`. -/
def getModifiedExpression (s : String) : String :=
  modifySpecialStrings (stripStr s)

/-! ## Segmentation (`MathTypst._break_up_typst_strings`) -/

/-- Fuelled worker for `re.split` with a non-capturing literal pattern:
split the scanned list at every non-overlapping occurrence of `pat`,
dropping the matches.  Used for the `#\x7b\x7d` split-marker pass. -/
def splitDropAux (pat : List Char) : Nat → List Char → List Char → List (List Char)
  | _, acc, [] => [acc.reverse]
  | 0, acc, l => [acc.reverse ++ l]
  | fuel + 1, acc, c :: rest =>
    if pat.isPrefixOf (c :: rest) && !pat.isEmpty then
      acc.reverse :: splitDropAux pat fuel [] (List.drop (pat.length - 1) rest)
    else
      splitDropAux pat fuel (c :: acc) rest

/-- `re.split(pat, s)` for a literal pattern without capture groups. -/
def splitDropStr (pat s : String) : List String :=
  (splitDropAux pat.data s.data.length [] s.data).map String.mk

/-- The first pattern of `pats` (in list order) matching at the head of
`l`, mirroring the leftmost, first-alternative matching of the regex
alternation built in `_break_up_typst_strings`.  (For an empty pattern
Python's `re` would match at every position; the model treats empty
patterns as non-matching, and every theorem below only involves
non-empty patterns.) -/
def firstPat (pats : List (List Char)) (l : List Char) : Option (List Char) :=
  pats.find? (fun p => p.isPrefixOf l && !p.isEmpty)

/-- Fuelled worker for `re.split` where every alternative is a capture
group: matched substrings are kept as their own pieces, interleaved
with the unmatched remainders. -/
def splitKeepAux (pats : List (List Char)) : Nat → List Char → List Char → List (List Char)
  | _, acc, [] => [acc.reverse]
  | 0, acc, l => [acc.reverse ++ l]
  | fuel + 1, acc, c :: rest =>
    match firstPat pats (c :: rest) with
    | some p => acc.reverse :: p :: splitKeepAux pats fuel [] (List.drop (p.length - 1) rest)
    | none => splitKeepAux pats fuel (c :: acc) rest

/-- `re.split("(p1)|(p2)|...", s)` for escaped literal alternatives. -/
def splitKeepStr (pats : List String) (s : String) : List String :=
  (splitKeepAux (pats.map String.data) s.data.length [] s.data).map String.mk

/-- `MathTypst._break_up_typst_strings`: split every input on the
explicit split marker `#\x7b\x7d`, then re-split every piece on the
alternation of the isolate substrings and the color-map keys (keeping
the matches), and finally drop empty pieces.  (The
`brace_notation_split_occurred` flag only feeds a log message and is
not modelled.) -/
def breakUpTypstStrings (inputs isolate colorKeys : List String) : List String :=
  let strs := (inputs.map (splitDropStr "#\x7b\x7d")).flatten
  let pats := isolate ++ colorKeys
  let pieces := if pats.isEmpty then strs else (strs.map (splitKeepStr pats)).flatten
  pieces.filter (fun p => p ≠ "")

/-! ## Reassembly (`MathTypst._break_up_by_substrings`) -/

/-- One direct child of the reassembled composite: the fragment string
it was built from, the jointly-rendered leaf paths assigned to it, and,
for fragments whose isolated render produced no paths, the leaf path of
the joint render the empty sub-object was anchored to (via
`move_to(..., RIGHT)`). -/
structure SubTypst (α : Type) where
  typst : String
  owned : List α
  anchor : Option α
  deriving DecidableEq

/-- `MathTypst._break_up_by_substrings`: walk the fragment strings with
a cursor into `subs`, the flat leaf-path list of the joint render.
`nSub s` is the number of leaf paths `s` renders to in isolation, and
`sepLen` the number of non-whitespace characters of the separator.  A
fragment with `nSub s = 0` owns no paths and is anchored at
`subs[min curr (len subs - 1)]`; with an empty `subs` that Python index
is `-1` into an empty list, an `IndexError`, modelled as `none`.  Any
other fragment owns the slice `subs[curr : curr + nSub s + sepLen]`. -/
def breakUpBySubstrings {α : Type} (nSub : String → Nat) (sepLen : Nat)
    (subs : List α) : List String → Nat → Option (List (SubTypst α))
  | [], _ => some []
  | s :: rest, curr =>
    let n := nSub s
    let newIndex := curr + n + sepLen
    if n = 0 then
      match subs.get? (min curr (subs.length - 1)) with
      | none => none
      | some a =>
        match breakUpBySubstrings nSub sepLen subs rest newIndex with
        | none => none
        | some cs => some ({ typst := s, owned := [], anchor := some a } :: cs)
    else
      match breakUpBySubstrings nSub sepLen subs rest newIndex with
      | none => none
      | some cs =>
        some ({ typst := s, owned := (subs.drop curr).take (newIndex - curr)
                anchor := none } :: cs)

/-- `len("".join(self.arg_separator.split()))`: the number of
non-whitespace characters of the separator. -/
def sepNonWsLen (sep : String) : Nat :=
  (sep.data.filter (fun c => !isPySpace c)).length

/-- The `MathTypst` construction pipeline (`segment_and_render` of the
specification): discover the fragments, render the separator-joined,
normalized whole string once (`render` abstracts the external engine:
it maps a normalized markup string to the flat list of leaf paths it
produces), and reassemble the flat paths into one sub-object per
fragment. -/
def segmentAndRender {α : Type} (render : String → List α) (sep : String)
    (inputs isolate colorKeys : List String) : Option (List (SubTypst α)) :=
  let strs := breakUpTypstStrings inputs isolate colorKeys
  let joined := String.intercalate sep strs
  let subs := render (getModifiedExpression joined)
  breakUpBySubstrings (fun t => (render (getModifiedExpression t)).length)
    (sepNonWsLen sep) subs strs 0

/-! ## Bulleted list fading (`BulletedList.fade_all_but`, string branch) -/

/-- One item of a bulleted list as `fade_all_but` sees it: the recorded
fragment text of the sub-object and its fill opacity. -/
structure ListItem where
  typst : String
  fillOpacity : ℚ
  deriving DecidableEq

/-- The matching test of `get_parts_by_typst` with the default
`substring=True, case_sensitive=True`: the argument occurs in the
item's recorded typst string. -/
def itemMatches (arg : String) (it : ListItem) : Bool :=
  containsSub arg.data it.typst.data

/-- Index of the first item matching `arg`, or `none`:
`get_part_by_typst` returns the first match of `get_parts_by_typst`, or
`None` when there is none.  Identity (`is`) comparison against that
part is modelled by comparing positions. -/
def findMatchIdxAux (arg : String) : List ListItem → Nat → Option Nat
  | [], _ => none
  | it :: rest, i =>
    if itemMatches arg it then some i else findMatchIdxAux arg rest (i + 1)

/-- `MathTypst.get_part_by_typst` as a position. -/
def getPartIdxByTypst (items : List ListItem) (arg : String) : Option Nat :=
  findMatchIdxAux arg items 0

/-- The fading loop of `fade_all_but`: the selected part gets fill
opacity 1, every other part gets the fade opacity. -/
def applyFadeAux (sel : Option Nat) (opacity : ℚ) : List ListItem → Nat → List ListItem
  | [], _ => []
  | it :: rest, i =>
    (if sel = some i then { it with fillOpacity := 1 }
     else { it with fillOpacity := opacity }) :: applyFadeAux sel opacity rest (i + 1)

/-- `BulletedList.fade_all_but` for a string argument: look the part up
by typst text, then fade every other part. -/
def fadeAllButStr (items : List ListItem) (arg : String) (opacity : ℚ) : List ListItem :=
  applyFadeAux (getPartIdxByTypst items arg) opacity items 0

/-! ## Font-size bookkeeping (`SingleStringMathTypst.font_size`) -/

/-- The size-relevant state of a `SingleStringMathTypst`: its current
height, the height recorded at construction time
(`self.initial_height = self.height`), and the proportionality constant
`SCALE_FACTOR_PER_FONT_POINT`.  The constant is defined in
`manim.constants`, outside this module, so it is carried as an abstract
field rather than a fixed value. -/
structure TypstState where
  height : ℚ
  initial_height : ℚ
  scale_factor : ℚ
  deriving DecidableEq

/-- The `font_size` property getter:
`self.height / self.initial_height / SCALE_FACTOR_PER_FONT_POINT`.
A zero divisor raises `ZeroDivisionError` in Python, modelled as
`Except.error`. -/
def fontSizeGet (st : TypstState) : Except String ℚ :=
  if st.initial_height = 0 then .error "ZeroDivisionError"
  else if st.scale_factor = 0 then .error "ZeroDivisionError"
  else .ok (st.height / st.initial_height / st.scale_factor)

/-- The `font_size` property setter: rejects non-positive values with a
`ValueError`; when the current height is positive, scales the mobject by
`font_val / self.font_size` (scaling multiplies the height by the
factor); otherwise leaves the state untouched. -/
def fontSizeSet (st : TypstState) (font_val : ℚ) : Except String TypstState :=
  if font_val ≤ 0 then .error "font_size must be greater than 0."
  else if 0 < st.height then
    match fontSizeGet st with
    | .error e => .error e
    | .ok fs =>
      if fs = 0 then .error "ZeroDivisionError"
      else .ok { st with height := st.height * (font_val / fs) }
  else .ok st

/-- The tail of `SingleStringMathTypst.__init__` (lines 100-104): record
`initial_height := self.height` after the render, and when no explicit
`height` argument was given, run the `font_size` setter with the
requested font size. -/
def initTypst (rendered_height : ℚ) (heightParam : Option ℚ) (font : ℚ)
    (scale_factor : ℚ) : Except String TypstState :=
  let st : TypstState :=
    { height := rendered_height, initial_height := rendered_height
      scale_factor := scale_factor }
  match heightParam with
  | none => fontSizeSet st font
  | some _ => .ok st

/-- A renderer under which the original C1 claim fails: both fragments
render to nothing in isolation while the joint string renders one path. -/
def cexRenderMismatch : String → List Nat :=
  fun s => if s = "a b" then [7] else []

/-- A renderer realising the C3 scenario: `"a"` and `"b"` render one
path each in isolation, the whitespace fragment renders nothing, and
the joint string `"a   b"` renders the two paths `[10, 20]`. -/
def cexRenderAnchor : String → List Nat :=
  fun s =>
    if s = "a   b" then [10, 20]
    else if s = "a" then [11]
    else if s = "b" then [12]
    else []

/-! ## Supporting lemmas: font size -/

/-- On a positively-sized mobject with sound bookkeeping, the setter
succeeds and the new height is `font_val * initial_height *
scale_factor` (independent of the current height). -/
lemma fontSizeSet_pos (st : TypstState) (v : ℚ) (hv : 0 < v) (hh : 0 < st.height)
    (hi : st.initial_height ≠ 0) (hk : st.scale_factor ≠ 0) :
    fontSizeSet st v =
      .ok { st with height := v * st.initial_height * st.scale_factor } := by
  have hfs : st.height / st.initial_height / st.scale_factor ≠ 0 :=
    div_ne_zero (div_ne_zero (ne_of_gt hh) hi) hk
  have hks : st.height * (v / (st.height / st.initial_height / st.scale_factor)) =
      v * st.initial_height * st.scale_factor := by
    field_simp
    ring
  simp [fontSizeSet, fontSizeGet, not_le.mpr hv, hh, hi, hk, hfs, hks]

/-! ## Claim theorems -/

/-- C6: for an object with positive height (and sound positive
bookkeeping constants), setting `font_size` to twice the current font
size and then back to the original font size restores `height` exactly:
the getter returns `height / initial_height / scale_factor`, and each
set scales the object by the ratio of desired to current font size. -/
theorem font_size_roundtrip (st : TypstState) (h0 : 0 < st.height)
    (h1 : 0 < st.initial_height) (h2 : 0 < st.scale_factor) :
    ∃ fs st2 st3,
      fontSizeGet st = .ok fs ∧
      fs = st.height / st.initial_height / st.scale_factor ∧
      fontSizeSet st (2 * fs) = .ok st2 ∧
      fontSizeSet st2 fs = .ok st3 ∧
      st3.height = st.height := by
  have hi : st.initial_height ≠ 0 := ne_of_gt h1
  have hk : st.scale_factor ≠ 0 := ne_of_gt h2
  set fs := st.height / st.initial_height / st.scale_factor with hfs
  have hfspos : 0 < fs := div_pos (div_pos h0 h1) h2
  have hkey : fs * st.initial_height * st.scale_factor = st.height := by
    rw [hfs]; field_simp; ring
  have hkey2 : 2 * fs * st.initial_height * st.scale_factor = 2 * st.height := by
    rw [← hkey]; ring
  have e2 := fontSizeSet_pos st (2 * fs) (by positivity) h0 hi hk
  set st2 : TypstState := { st with height := 2 * fs * st.initial_height * st.scale_factor }
    with hst2
  have hh2 : 0 < st2.height := by
    rw [hst2]; show 0 < 2 * fs * st.initial_height * st.scale_factor
    rw [hkey2]; positivity
  have e3 := fontSizeSet_pos st2 fs hfspos hh2 (by rw [hst2]; exact hi) (by rw [hst2]; exact hk)
  refine ⟨fs, st2, _, ?_, rfl, ?_, e3, ?_⟩
  · simp [fontSizeGet, hi, hk]
  · simpa [hst2, mul_assoc] using e2
  · show fs * st2.initial_height * st2.scale_factor = st.height
    rw [hst2]; exact hkey

/-- Witness for `font_size_roundtrip` at the concrete state with
height 1, initial height 1 and scale factor 1. -/
theorem font_size_roundtrip_witness :
    ∃ fs st2 st3,
      fontSizeGet ⟨1, 1, 1⟩ = .ok fs ∧
      fs = (⟨1, 1, 1⟩ : TypstState).height / (⟨1, 1, 1⟩ : TypstState).initial_height /
        (⟨1, 1, 1⟩ : TypstState).scale_factor ∧
      fontSizeSet ⟨1, 1, 1⟩ (2 * fs) = .ok st2 ∧
      fontSizeSet st2 fs = .ok st3 ∧
      st3.height = (⟨1, 1, 1⟩ : TypstState).height :=
  font_size_roundtrip ⟨1, 1, 1⟩ (by norm_num) (by norm_num) (by norm_num)

/-- C7: the `font_size` setter rejects every non-positive requested
value with the `ValueError` stating the positivity constraint, and on
an object of zero height it accepts any positive value and leaves the
state unchanged. -/
theorem font_size_setter_guard (st : TypstState) (v : ℚ) :
    (v ≤ 0 → fontSizeSet st v = .error "font_size must be greater than 0.") ∧
    (0 < v → st.height = 0 → fontSizeSet st v = .ok st) := by
  constructor
  · intro hv
    simp [fontSizeSet, hv]
  · intro hv hh
    simp [fontSizeSet, not_le.mpr hv, hh]

/-- Witness for `font_size_setter_guard`: the rejection at `-1` and the
unscaled acceptance at font size `48` on a zero-height state. -/
theorem font_size_setter_guard_witness :
    fontSizeSet ⟨0, 0, 1⟩ (-1) = .error "font_size must be greater than 0." ∧
    fontSizeSet ⟨0, 0, 1⟩ 48 = .ok ⟨0, 0, 1⟩ :=
  ⟨(font_size_setter_guard ⟨0, 0, 1⟩ (-1)).1 (by norm_num),
   (font_size_setter_guard ⟨0, 0, 1⟩ 48).2 (by norm_num) rfl⟩

/-- C10: a zero-height render records `initial_height = 0`;
construction still succeeds (the setter skips the zero-height object),
but every later read of the `font_size` property divides by the zero
`initial_height` and fails with `ZeroDivisionError`. -/
theorem zero_initial_height_font_size_read_fails (font K : ℚ) (st : TypstState)
    (hf : 0 < font) (hst : st.initial_height = 0) :
    initTypst 0 none font K = .ok { height := 0, initial_height := 0, scale_factor := K } ∧
    fontSizeGet st = .error "ZeroDivisionError" := by
  constructor
  · simp [initTypst, fontSizeSet, not_le.mpr hf]
  · simp [fontSizeGet, hst]

/-- Witness for `zero_initial_height_font_size_read_fails` at the
default font size 48 and a unit scale factor. -/
theorem zero_initial_height_witness :
    initTypst 0 none 48 1 = .ok { height := 0, initial_height := 0, scale_factor := 1 } ∧
    fontSizeGet ⟨0, 0, 1⟩ = .error "ZeroDivisionError" :=
  zero_initial_height_font_size_read_fails 48 1 ⟨0, 0, 1⟩ (by norm_num) rfl

/-! ## Supporting lemmas: reassembly -/

/-- As long as the joint render produced at least one leaf path, the
reassembly loop never hits its failing index access: the clamped index
`min curr (len - 1)` is valid. -/
lemma breakUp_ne_none {α : Type} (nSub : String → Nat) (sepLen : Nat) (subs : List α)
    (hsubs : subs ≠ []) :
    ∀ (strs : List String) (curr : Nat),
      breakUpBySubstrings nSub sepLen subs strs curr ≠ none := by
  intro strs
  induction strs with
  | nil => intro curr; simp [breakUpBySubstrings]
  | cons s rest ih =>
    intro curr
    have hlen : 0 < subs.length := List.length_pos.mpr hsubs
    simp only [breakUpBySubstrings]
    by_cases hn : nSub s = 0
    · rw [if_pos hn]
      have hidx : min curr (subs.length - 1) < subs.length := by omega
      cases hget : subs.get? (min curr (subs.length - 1)) with
      | none => exact absurd (List.get?_eq_none.mp hget) (by omega)
      | some a =>
        cases hrec : breakUpBySubstrings nSub sepLen subs rest (curr + nSub s + sepLen) with
        | none => exact absurd hrec (ih _)
        | some cs => simp
    · rw [if_neg hn]
      cases hrec : breakUpBySubstrings nSub sepLen subs rest (curr + nSub s + sepLen) with
      | none => exact absurd hrec (ih _)
      | some cs => simp

/-- The reassembly loop produces exactly one child per fragment string,
labelled with that string, in fragment order. -/
lemma breakUp_map_typst {α : Type} (nSub : String → Nat) (sepLen : Nat) (subs : List α) :
    ∀ (strs : List String) (curr : Nat) (children : List (SubTypst α)),
      breakUpBySubstrings nSub sepLen subs strs curr = some children →
      children.map (fun c => c.typst) = strs := by
  intro strs
  induction strs with
  | nil =>
    intro curr children h
    simp only [breakUpBySubstrings, Option.some.injEq] at h
    subst h; rfl
  | cons s rest ih =>
    intro curr children h
    simp only [breakUpBySubstrings] at h
    by_cases hn : nSub s = 0
    · rw [if_pos hn] at h
      cases hget : subs.get? (min curr (subs.length - 1)) with
      | none => rw [hget] at h; exact absurd h (by simp)
      | some a =>
        rw [hget] at h
        cases hrec : breakUpBySubstrings nSub sepLen subs rest (curr + nSub s + sepLen) with
        | none => rw [hrec] at h; exact absurd h (by simp)
        | some cs =>
          rw [hrec] at h
          simp only [Option.some.injEq] at h
          subst h
          simpa using ih _ cs hrec
    · rw [if_neg hn] at h
      cases hrec : breakUpBySubstrings nSub sepLen subs rest (curr + nSub s + sepLen) with
      | none => rw [hrec] at h; exact absurd h (by simp)
      | some cs =>
        rw [hrec] at h
        simp only [Option.some.injEq] at h
        subst h
        simpa using ih _ cs hrec

/-- Cursor-advance invariant of the reassembly loop: when the
isolated-render counts plus separator corrections account exactly for
the joint render's leaf paths, and zero-count fragments can only occur
with a zero separator correction, the children's owned slices tile
`subs` from `curr` to its end. -/
lemma breakUp_owned_sum {α : Type} (nSub : String → Nat) (sepLen : Nat) (subs : List α) :
    ∀ (strs : List String) (curr : Nat) (children : List (SubTypst α)),
      breakUpBySubstrings nSub sepLen subs strs curr = some children →
      curr + (strs.map (fun s => nSub s + sepLen)).sum = subs.length →
      (sepLen = 0 ∨ ∀ s ∈ strs, nSub s ≠ 0) →
      (children.map (fun c => c.owned.length)).sum + curr = subs.length := by
  intro strs
  induction strs with
  | nil =>
    intro curr children h hsum _
    simp only [breakUpBySubstrings, Option.some.injEq] at h
    subst h
    simpa using hsum
  | cons s rest ih =>
    intro curr children h hsum hz
    simp only [breakUpBySubstrings] at h
    simp only [List.map_cons, List.sum_cons] at hsum
    by_cases hn : nSub s = 0
    · have hz0 : sepLen = 0 := by
        rcases hz with hz | hz
        · exact hz
        · exact absurd hn (hz s (List.mem_cons_self s rest))
      subst hz0
      rw [if_pos hn] at h
      cases hget : subs.get? (min curr (subs.length - 1)) with
      | none => rw [hget] at h; exact absurd h (by simp)
      | some a =>
        rw [hget] at h
        cases hrec : breakUpBySubstrings nSub 0 subs rest (curr + nSub s + 0) with
        | none => rw [hrec] at h; exact absurd h (by simp)
        | some cs =>
          rw [hrec] at h
          simp only [Option.some.injEq] at h
          subst h
          have hrec' : breakUpBySubstrings nSub 0 subs rest curr = some cs := by
            rw [hn] at hrec; simpa using hrec
          have := ih curr cs hrec' (by omega)
            (by rcases hz with hz | hz
                · exact Or.inl hz
                · exact Or.inr fun x hx => hz x (List.mem_cons_of_mem s hx))
          simpa using this
    · rw [if_neg hn] at h
      cases hrec : breakUpBySubstrings nSub sepLen subs rest (curr + nSub s + sepLen) with
      | none => rw [hrec] at h; exact absurd h (by simp)
      | some cs =>
        rw [hrec] at h
        simp only [Option.some.injEq] at h
        subst h
        have hle : curr + nSub s + sepLen ≤ subs.length := by omega
        have := ih (curr + nSub s + sepLen) cs hrec (by omega)
          (by rcases hz with hz | hz
              · exact Or.inl hz
              · exact Or.inr fun x hx => hz x (List.mem_cons_of_mem s hx))
        have hownlen : ((subs.drop curr).take (curr + nSub s + sepLen - curr)).length
            = nSub s + sepLen := by
          simp only [List.length_take, List.length_drop]
          omega
        simp only [List.map_cons, List.sum_cons, hownlen]
        omega

/-! ## Claim theorems: reassembly -/

/-- C1 (amended): whenever the reassembly loop completes, the separator
correction is zero (an all-whitespace separator) or every fragment's
isolated render is non-empty, and the per-fragment counts plus
separator corrections sum exactly to the joint render's leaf-path
count, the children's owned leaf-path counts sum to that same joint
count — no jointly-rendered leaf path is left unassigned and none is
assigned twice. -/
theorem child_path_sum_eq_joint_of_aligned {α : Type} (nSub : String → Nat) (sepLen : Nat)
    (subs : List α) (strs : List String) (children : List (SubTypst α))
    (hsome : breakUpBySubstrings nSub sepLen subs strs 0 = some children)
    (hsum : (strs.map (fun s => nSub s + sepLen)).sum = subs.length)
    (hz : sepLen = 0 ∨ ∀ s ∈ strs, nSub s ≠ 0) :
    (children.map (fun c => c.owned.length)).sum = subs.length := by
  have h := breakUp_owned_sum nSub sepLen subs strs 0 children hsome (by simpa using hsum) hz
  omega

/-- Witness for `child_path_sum_eq_joint_of_aligned`: two one-path
fragments tiling a two-path joint render. -/
theorem child_path_sum_eq_joint_witness :
    ((([⟨"x", [0], none⟩, ⟨"y", [1], none⟩] : List (SubTypst Nat)).map
        (fun c => c.owned.length)).sum = ([0, 1] : List Nat).length) :=
  child_path_sum_eq_joint_of_aligned (fun _ => 1) 0 [0, 1] ["x", "y"]
    [⟨"x", [0], none⟩, ⟨"y", [1], none⟩] (by decide) (by decide) (Or.inl rfl)

/-- C1 counterexample: with `cexRenderMismatch`, `segment_and_render`
completes and produces a composite whose children own no leaf paths at
all, while rendering the separator-joined fragment string directly
yields one leaf path — the sums differ, refuting the claim as stated. -/
theorem child_path_sum_mismatch_cex :
    segmentAndRender cexRenderMismatch " " ["a", "b"] [] [] =
      some [⟨"a", [], some 7⟩, ⟨"b", [], some 7⟩] ∧
    ((([⟨"a", [], some 7⟩, ⟨"b", [], some 7⟩] : List (SubTypst Nat)).map
        (fun c => c.owned.length)).sum ≠
      (cexRenderMismatch (getModifiedExpression
        (String.intercalate " " (breakUpTypstStrings ["a", "b"] [] [])))).length) :=
  ⟨by decide, by decide⟩

/-- C4 (amended): provided the joint render produced at least one leaf
path, segmentation and reassembly complete without an error for every
fragment sequence, zero-leaf-path fragments included. -/
theorem zero_leaf_no_failure_of_nonempty_joint {α : Type} (render : String → List α)
    (sep : String) (inputs isolate colorKeys : List String)
    (h : render (getModifiedExpression (String.intercalate sep
          (breakUpTypstStrings inputs isolate colorKeys))) ≠ []) :
    segmentAndRender render sep inputs isolate colorKeys ≠ none := by
  unfold segmentAndRender
  exact breakUp_ne_none _ _ _ h _ 0

/-- Witness for `zero_leaf_no_failure_of_nonempty_joint`: a renderer
producing a single path never makes reassembly fail. -/
theorem zero_leaf_no_failure_witness :
    segmentAndRender (fun _ => [(0 : Nat)]) " " ["a"] [] [] ≠ none :=
  zero_leaf_no_failure_of_nonempty_joint _ _ _ _ _ (by decide)

/-- C4 counterexample: when every render is empty (e.g. an
all-whitespace input), the zero-leaf fragment handler indexes
`submobjects[-1]` of the empty joint render — an `IndexError`, so the
construction does not complete. -/
theorem zero_leaf_crash_cex :
    segmentAndRender (fun _ => ([] : List Nat)) " " ["a"] [] [] = none := by
  decide

/-- C3 (amended): a fragment whose isolated render yields zero leaf
paths owns no leaf paths and is anchored at the jointly-rendered leaf
path at index `min curr (total - 1)`; for an all-whitespace fragment
between two non-empty fragments that anchor is the *first* leaf path
assigned to the following fragment (the cursor position), not the
preceding rendered leaf. -/
theorem zero_leaf_anchor_spec {α : Type} (nSub : String → Nat) (subs : List α)
    (a w b : String) (ha : nSub a ≠ 0) (hw : nSub w = 0) (hb : nSub b ≠ 0)
    (hlen : subs.length = nSub a + nSub b) :
    ∃ ca cw cb,
      breakUpBySubstrings nSub 0 subs [a, w, b] 0 = some [ca, cw, cb] ∧
      cw.owned = [] ∧
      cw.anchor = subs.get? (min (nSub a) (subs.length - 1)) ∧
      cw.anchor = cb.owned.head? := by
  have hbpos : 0 < nSub b := Nat.pos_of_ne_zero hb
  have hmin : min (nSub a) (subs.length - 1) = nSub a := by omega
  have hna_lt : nSub a < subs.length := by omega
  obtain ⟨x, hx⟩ : ∃ x, subs.get? (nSub a) = some x :=
    ⟨subs.get ⟨nSub a, hna_lt⟩, List.get?_eq_get hna_lt⟩
  have hx' : subs[nSub a]? = some x := by
    rw [← List.get?_eq_getElem?]
    exact hx
  refine ⟨⟨a, subs.take (nSub a), none⟩, ⟨w, [], some x⟩,
    ⟨b, (subs.drop (nSub a)).take (nSub b), none⟩, ?_, rfl, ?_, ?_⟩
  · simp only [breakUpBySubstrings, if_neg ha, if_neg hb, if_pos hw, hw,
      Nat.zero_add, Nat.add_zero, hmin, hx]
    simp only [Nat.sub_zero, List.drop_zero]
    rw [show nSub a + nSub b - nSub a = nSub b from by omega]
    simp
  · rw [hmin, hx]
  · have htake : ((subs.drop (nSub a)).take (nSub b)).head? = (subs.drop (nSub a)).head? := by
      cases hd : subs.drop (nSub a) with
      | nil => simp
      | cons y ys =>
        cases hnb : nSub b with
        | zero => exact absurd hnb hb
        | succ k => simp
    show some x = ((subs.drop (nSub a)).take (nSub b)).head?
    rw [htake, List.head?_drop, hx']

/-- Witness for `zero_leaf_anchor_spec`: fragments rendering 1, 0 and 1
path against a two-path joint render. -/
theorem zero_leaf_anchor_witness :
    ∃ ca cw cb,
      breakUpBySubstrings (fun s => if s = "w" then 0 else 1) 0 [10, 20] ["a", "w", "b"] 0 =
        some [ca, cw, cb] ∧
      cw.owned = [] ∧
      cw.anchor = ([10, 20] : List Nat).get?
        (min ((fun s : String => if s = "w" then 0 else 1) "a")
          (([10, 20] : List Nat).length - 1)) ∧
      cw.anchor = cb.owned.head? :=
  zero_leaf_anchor_spec (fun s => if s = "w" then 0 else 1) [10, 20] "a" "w" "b"
    (by decide) (by decide) (by decide) (by decide)

/-- C3 counterexample: for the all-whitespace fragment between `"a"`
and `"b"`, the anchor is the leaf path `20` — the first leaf of the
*following* fragment — and not the right edge of the preceding rendered
leaf `10`, refuting the claim's final clause. -/
theorem zero_leaf_anchor_not_preceding_cex :
    segmentAndRender cexRenderAnchor " " ["a", " ", "b"] [] [] =
      some [⟨"a", [10], none⟩, ⟨" ", [], some 20⟩, ⟨"b", [20], none⟩] ∧
    some (20 : Nat) ≠ ([10] : List Nat).getLast? :=
  ⟨by decide, by decide⟩

/-! ## Claim theorems: fragment discovery -/

/-- Splitting a list with no occurrence of the pattern returns the
accumulated characters unchanged. -/
lemma splitDropAux_no_occurrence (pat : List Char) :
    ∀ (l : List Char) (fuel : Nat) (acc : List Char), l.length ≤ fuel →
      containsSub pat l = false →
      splitDropAux pat fuel acc l = [acc.reverse ++ l] := by
  intro l
  induction l with
  | nil => intro fuel acc _ _; cases fuel <;> simp [splitDropAux]
  | cons c rest ih =>
    intro fuel acc hfuel hocc
    simp only [containsSub, Bool.or_eq_false_iff] at hocc
    cases fuel with
    | zero => simp at hfuel
    | succ f =>
      simp only [splitDropAux, hocc.1, Bool.false_and, if_false]
      rw [ih f (c :: acc) (by simpa using hfuel) hocc.2]
      simp

/-- `re.split` on a fragment not containing the split marker returns
the fragment alone. -/
lemma splitDropStr_no_occurrence (pat s : String)
    (h : containsSub pat.data s.data = false) :
    splitDropStr pat s = [s] := by
  unfold splitDropStr
  rw [splitDropAux_no_occurrence pat.data s.data s.data.length [] le_rfl h]
  rfl

/-- When no pattern occurs anywhere in the scanned list, the
keep-matches splitter returns the accumulated characters unchanged. -/
lemma splitKeepAux_no_occurrence (pats : List (List Char)) :
    ∀ (l : List Char) (fuel : Nat) (acc : List Char), l.length ≤ fuel →
      (∀ p ∈ pats, containsSub p l = false) →
      splitKeepAux pats fuel acc l = [acc.reverse ++ l] := by
  intro l
  induction l with
  | nil => intro fuel acc _ _; cases fuel <;> simp [splitKeepAux]
  | cons c rest ih =>
    intro fuel acc hfuel hocc
    cases fuel with
    | zero => simp at hfuel
    | succ f =>
      have hnone : firstPat pats (c :: rest) = none := by
        rw [firstPat, List.find?_eq_none]
        intro p hp
        have := hocc p hp
        simp only [containsSub, Bool.or_eq_false_iff] at this
        simp [this.1]
      simp only [splitKeepAux, hnone]
      rw [ih f (c :: acc) (by simpa using hfuel)
        (fun p hp => by
          have := hocc p hp
          simp only [containsSub, Bool.or_eq_false_iff] at this
          exact this.2)]
      simp

/-- `re.split` with an alternation none of whose alternatives occur in
the fragment returns the fragment alone. -/
lemma splitKeepStr_no_occurrence (pats : List String) (s : String)
    (h : ∀ p ∈ pats, containsSub p.data s.data = false) :
    splitKeepStr pats s = [s] := by
  unfold splitKeepStr
  rw [splitKeepAux_no_occurrence (pats.map String.data) s.data s.data.length [] le_rfl
    (by intro p hp
        obtain ⟨q, hq, rfl⟩ := List.mem_map.mp hp
        exact h q hq)]
  rfl

/-- Flattening singleton pieces is the identity. -/
lemma flatten_map_singleton (l : List String) :
    (l.map (fun s => [s])).flatten = l := by
  induction l with
  | nil => rfl
  | cons s rest ih => simp [ih]

/-- Fragment discovery is the identity on non-empty fragments that
contain no split marker and no isolate/color-map key. -/
lemma breakUpTypst_id (inputs isolate colorKeys : List String)
    (hne : ∀ s ∈ inputs, s ≠ "")
    (hmark : ∀ s ∈ inputs, containsSub ("#\x7b\x7d").data s.data = false)
    (hpats : ∀ p ∈ isolate ++ colorKeys, ∀ s ∈ inputs, containsSub p.data s.data = false) :
    breakUpTypstStrings inputs isolate colorKeys = inputs := by
  have h1 : inputs.map (splitDropStr "#\x7b\x7d") = inputs.map (fun s => [s]) :=
    List.map_congr_left fun s hs => splitDropStr_no_occurrence _ s (hmark s hs)
  have hstrs : (inputs.map (splitDropStr "#\x7b\x7d")).flatten = inputs := by
    rw [h1, flatten_map_singleton]
  have h2 : (if (isolate ++ colorKeys).isEmpty then inputs
      else (inputs.map (splitKeepStr (isolate ++ colorKeys))).flatten) = inputs := by
    by_cases hemp : (isolate ++ colorKeys).isEmpty
    · rw [if_pos hemp]
    · rw [if_neg hemp]
      have h3 : inputs.map (splitKeepStr (isolate ++ colorKeys)) =
          inputs.map (fun s => [s]) :=
        List.map_congr_left fun s hs =>
          splitKeepStr_no_occurrence _ s fun p hp => hpats p hp s hs
      rw [h3, flatten_map_singleton]
  unfold breakUpTypstStrings
  simp only [hstrs]
  rw [h2]
  rw [List.filter_eq_self]
  intro s hs
  simpa using hne s hs

/-- C2 (amended): for every sequence of *non-empty* fragments
containing no split marker and no isolate/color-map match, any
composite produced by `segment_and_render` has exactly `len F` direct
children, the i-th child recording the i-th fragment (child order
equals fragment order). -/
theorem children_match_fragments_of_no_splits {α : Type} (render : String → List α)
    (sep : String) (inputs isolate colorKeys : List String)
    (children : List (SubTypst α))
    (hne : ∀ s ∈ inputs, s ≠ "")
    (hmark : ∀ s ∈ inputs, containsSub ("#\x7b\x7d").data s.data = false)
    (hpats : ∀ p ∈ isolate ++ colorKeys, ∀ s ∈ inputs, containsSub p.data s.data = false)
    (hsome : segmentAndRender render sep inputs isolate colorKeys = some children) :
    children.map (fun c => c.typst) = inputs ∧ children.length = inputs.length := by
  have hb := breakUpTypst_id inputs isolate colorKeys hne hmark hpats
  unfold segmentAndRender at hsome
  rw [hb] at hsome
  have h := breakUp_map_typst _ _ _ inputs 0 children hsome
  refine ⟨h, ?_⟩
  rw [← h, List.length_map]

/-- Witness for `children_match_fragments_of_no_splits`: a single plain
fragment yields a single child recording it. -/
theorem children_match_fragments_witness :
    (([⟨"x", [0], none⟩] : List (SubTypst Nat)).map (fun c => c.typst) = ["x"]) ∧
    ([⟨"x", [0], none⟩] : List (SubTypst Nat)).length = (["x"] : List String).length :=
  children_match_fragments_of_no_splits (fun _ => [(0 : Nat)]) " " ["x"] [] [] _
    (by decide) (by decide) (by decide) (by decide)

/-- C2 counterexample: the empty-string fragment contains no split
marker and matches nothing, yet it is dropped by the piece filter, so
the produced composite has 0 children instead of `len F = 1`. -/
theorem child_count_empty_fragment_cex :
    segmentAndRender (fun _ => [(0 : Nat)]) " " [""] [] [] = some [] ∧
    ([""] : List String).length = 1 :=
  ⟨by decide, rfl⟩

/-! ## Supporting lemmas: fading -/

/-- When no item matches, the lookup yields no index. -/
lemma findMatchIdxAux_eq_none (arg : String) (items : List ListItem) (i : Nat)
    (h : ∀ it ∈ items, itemMatches arg it = false) :
    findMatchIdxAux arg items i = none := by
  induction items generalizing i with
  | nil => rfl
  | cons it rest ih =>
    have h1 := h it (List.mem_cons_self it rest)
    simp only [findMatchIdxAux, h1, Bool.false_eq_true, if_false]
    exact ih (i + 1) fun x hx => h x (List.mem_cons_of_mem it hx)

/-- With no selected index, the fading loop sets every opacity to the
fade opacity. -/
lemma applyFadeAux_none (op : ℚ) (items : List ListItem) (i : Nat) :
    applyFadeAux none op items i =
      items.map (fun it => { it with fillOpacity := op }) := by
  induction items generalizing i with
  | nil => rfl
  | cons it rest ih => simp [applyFadeAux, ih]

/-- C9: `fade_all_but` on a string that matches no item's recorded
typst text raises no error and sets every item's fill opacity to the
fade opacity, so no item is left at full opacity. -/
theorem fade_all_but_no_match_fades_all (items : List ListItem) (arg : String) (op : ℚ)
    (h : ∀ it ∈ items, itemMatches arg it = false) :
    fadeAllButStr items arg op = items.map (fun it => { it with fillOpacity := op }) := by
  unfold fadeAllButStr getPartIdxByTypst
  rw [findMatchIdxAux_eq_none arg items 0 h, applyFadeAux_none]

/-- Witness for `fade_all_but_no_match_fades_all`: a two-item list and
the unmatched string `"zzz"`; both items end at the fade opacity. -/
theorem fade_all_but_no_match_witness :
    fadeAllButStr [⟨"Item 1", 1⟩, ⟨"Item 2", 1⟩] "zzz" (1 / 2) =
      [⟨"Item 1", 1 / 2⟩, ⟨"Item 2", 1 / 2⟩] := by
  have := fade_all_but_no_match_fades_all [⟨"Item 1", 1⟩, ⟨"Item 2", 1⟩] "zzz" (1 / 2)
    (by decide)
  simpa using this

/-! ## Supporting lemmas: the delimiter-repair counts -/

@[simp] lemma cntEsc_nil (d : Char) : cntEsc d [] = 0 := rfl

@[simp] lemma cntEsc_singleton (d x : Char) : cntEsc d [x] = 0 := rfl

lemma cntEsc_cons_cons (d b c : Char) (rest : List Char) :
    cntEsc d (b :: c :: rest) =
      if b = '\\' && c = d then 1 + cntEsc d rest else cntEsc d (c :: rest) := rfl

/-- Non-overlapping escaped-delimiter counts add across an append as
long as the left part does not end in the escape character (otherwise a
new escape could straddle the boundary). -/
lemma cntEsc_append_aux (d : Char) :
    ∀ (n : Nat) (l m : List Char), l.length ≤ n → l.getLast? ≠ some '\\' →
      cntEsc d (l ++ m) = cntEsc d l + cntEsc d m := by
  intro n
  induction n with
  | zero =>
    intro l m hl _
    have hnil : l = [] := List.length_eq_zero.mp (Nat.le_zero.mp hl)
    subst hnil
    simp
  | succ k ih =>
    intro l m hl hlast
    match l with
    | [] => simp
    | [x] =>
      have hx : x ≠ '\\' := by simpa using hlast
      cases m with
      | nil => simp
      | cons y rest =>
        rw [List.singleton_append, cntEsc_cons_cons]
        simp [hx]
    | x :: y :: rest =>
      by_cases hxy : (x = '\\' && y = d) = true
      · rw [List.cons_append, List.cons_append, cntEsc_cons_cons, if_pos hxy,
          cntEsc_cons_cons, if_pos hxy]
        cases rest with
        | nil => simp
        | cons z zs =>
          have hrest_last : (z :: zs).getLast? ≠ some '\\' := by
            rwa [List.getLast?_cons_cons, List.getLast?_cons_cons] at hlast
          rw [ih (z :: zs) m (by simp at hl ⊢; omega) hrest_last]
          omega
      · rw [List.cons_append, List.cons_append, cntEsc_cons_cons, if_neg hxy,
          cntEsc_cons_cons, if_neg hxy, ← List.cons_append]
        exact ih (y :: rest) m (by simp at hl ⊢; omega)
          (by rwa [List.getLast?_cons_cons] at hlast)

lemma cntEsc_append (d : Char) (l m : List Char) (h : l.getLast? ≠ some '\\') :
    cntEsc d (l ++ m) = cntEsc d l + cntEsc d m :=
  cntEsc_append_aux d l.length l m le_rfl h

/-- A list without the escape character contains no escaped delimiter. -/
lemma cntEsc_no_backslash_aux (d : Char) :
    ∀ (n : Nat) (m : List Char), m.length ≤ n → (∀ x ∈ m, x ≠ '\\') →
      cntEsc d m = 0 := by
  intro n
  induction n with
  | zero =>
    intro m hm _
    have hnil : m = [] := List.length_eq_zero.mp (Nat.le_zero.mp hm)
    subst hnil
    rfl
  | succ k ih =>
    intro m hm hbs
    match m with
    | [] => rfl
    | [x] => rfl
    | x :: y :: rest =>
      have hx : x ≠ '\\' := hbs x (List.mem_cons_self _ _)
      rw [cntEsc_cons_cons]
      simp only [hx, Bool.false_and, decide_False]
      exact ih (y :: rest) (by simp at hm ⊢; omega)
        (fun z hz => hbs z (List.mem_cons_of_mem x hz))

lemma cntEsc_no_backslash (d : Char) (m : List Char) (h : ∀ x ∈ m, x ≠ '\\') :
    cntEsc d m = 0 :=
  cntEsc_no_backslash_aux d m.length m le_rfl h

lemma getLast?_replicate_ne (e : Char) (n : Nat) (he : e ≠ '\\') :
    (List.replicate n e).getLast? ≠ some '\\' := by
  rw [List.getLast?_replicate]
  split
  · simp
  · simp [he]

/-- Unescaped counts add across an append whose left part does not end
in the escape character. -/
lemma ub_append (d : Char) (l m : List Char) (h : l.getLast? ≠ some '\\') :
    ub d (l ++ m) = ub d l + ub d m := by
  unfold ub
  rw [List.count_append, cntEsc_append d l m h]
  push_cast
  ring

lemma ub_replicate (d e : Char) (n : Nat) (he : e ≠ '\\') :
    ub d (List.replicate n e) = if e = d then (n : Int) else 0 := by
  unfold ub
  rw [List.count_replicate,
    cntEsc_no_backslash d _ (fun x hx => by rw [List.eq_of_mem_replicate hx]; exact he)]
  by_cases h : e = d
  · simp [h]
  · simp [h]

/-- One repair pass balances its own pair, preserves the no-trailing-
escape invariant, and leaves the unescaped counts of every other
character unchanged. -/
lemma balanceOne_spec (o c : Char) (ho : o ≠ '\\') (hc : c ≠ '\\') (hoc : o ≠ c)
    (s : List Char) (hlast : s.getLast? ≠ some '\\') :
    ub o (balanceOne o c s) = ub c (balanceOne o c s) ∧
    (balanceOne o c s).getLast? ≠ some '\\' ∧
    ∀ d : Char, d ≠ o → d ≠ c → ub d (balanceOne o c s) = ub d s := by
  unfold balanceOne
  by_cases h1 : ub o s < ub c s
  · rw [if_pos h1]
    have hrep_last := getLast?_replicate_ne o (ub c s - ub o s).toNat ho
    have happ := fun d => ub_append d (List.replicate (ub c s - ub o s).toNat o) s hrep_last
    have hn : (((ub c s - ub o s).toNat : Nat) : Int) = ub c s - ub o s :=
      Int.toNat_of_nonneg (by omega)
    have hsne : s ≠ [] := by
      intro he
      rw [he] at h1
      simp [ub] at h1
    refine ⟨?_, ?_, ?_⟩
    · rw [happ o, happ c, ub_replicate o o _ ho, ub_replicate c o _ ho,
        if_pos rfl, if_neg hoc]
      omega
    · rw [List.getLast?_append_of_ne_nil _ hsne]
      exact hlast
    · intro d hdo _
      rw [happ d, ub_replicate d o _ ho, if_neg (fun he => hdo he.symm)]
      omega
  · rw [if_neg h1]
    by_cases h2 : ub c s < ub o s
    · rw [if_pos h2]
      have hq : (((ub o s - ub c s).toNat : Nat) : Int) = ub o s - ub c s :=
        Int.toNat_of_nonneg (by omega)
      have hqpos : 0 < (ub o s - ub c s).toNat := by omega
      have happ := fun d => ub_append d s (List.replicate (ub o s - ub c s).toNat c) hlast
      refine ⟨?_, ?_, ?_⟩
      · rw [happ o, happ c, ub_replicate o c _ hc, ub_replicate c c _ hc,
          if_neg (fun he => hoc he.symm), if_pos rfl]
        omega
      · rw [List.getLast?_append_of_ne_nil _
          (by rw [Ne, List.replicate_eq_nil_iff]; omega)]
        rw [List.getLast?_replicate, if_neg (by omega)]
        simp [hc]
      · intro d _ hdc
        rw [happ d, ub_replicate d c _ hc, if_neg (fun he => hdc he.symm)]
        omega
    · rw [if_neg h2]
      exact ⟨le_antisymm (not_lt.mp h2) (not_lt.mp h1), hlast, fun d _ _ => rfl⟩

/-! ## Claim theorems: delimiter repair -/

/-- C5 (amended): for every input string that does not end in the
escape character `\`, the repaired string has, independently for each
of the pairs `\x7b\x7d`, `()` and `[]`, equal unescaped opening and
closing counts; and the two specification examples repair as claimed:
`e^\x7bi` gains a closing brace and ` tau\x7d = 1` gains a leading
opening brace. -/
theorem stray_brace_balanced_of_no_trailing_escape :
    (∀ s : String, s.data.getLast? ≠ some '\\' →
        ub '{' (removeStrayBraces s).data = ub '}' (removeStrayBraces s).data ∧
        ub '(' (removeStrayBraces s).data = ub ')' (removeStrayBraces s).data ∧
        ub '[' (removeStrayBraces s).data = ub ']' (removeStrayBraces s).data) ∧
    getModifiedExpression "e^\x7bi" = "e^\x7bi\x7d" ∧
    getModifiedExpression " tau\x7d = 1" = "\x7btau\x7d = 1" := by
  refine ⟨?_, by decide, by decide⟩
  intro s hlast
  have h1 := balanceOne_spec '{' '}' (by decide) (by decide) (by decide) s.data hlast
  set s1 := balanceOne '{' '}' s.data with hs1
  have h2 := balanceOne_spec '(' ')' (by decide) (by decide) (by decide) s1 h1.2.1
  set s2 := balanceOne '(' ')' s1 with hs2
  have h3 := balanceOne_spec '[' ']' (by decide) (by decide) (by decide) s2 h2.2.1
  have hdata : (removeStrayBraces s).data = balanceOne '[' ']' s2 := rfl
  rw [hdata]
  refine ⟨?_, ?_, h3.1⟩
  · rw [h3.2.2 '{' (by decide) (by decide), h3.2.2 '}' (by decide) (by decide),
      h2.2.2 '{' (by decide) (by decide), h2.2.2 '}' (by decide) (by decide)]
    exact h1.1
  · rw [h3.2.2 '(' (by decide) (by decide), h3.2.2 ')' (by decide) (by decide)]
    exact h2.1

/-- Witness for `stray_brace_balanced_of_no_trailing_escape` at the
concrete fragment `e^\x7bi`. -/
theorem stray_brace_balanced_witness :
    ub '{' (removeStrayBraces "e^\x7bi").data = ub '}' (removeStrayBraces "e^\x7bi").data ∧
    ub '(' (removeStrayBraces "e^\x7bi").data = ub ')' (removeStrayBraces "e^\x7bi").data ∧
    ub '[' (removeStrayBraces "e^\x7bi").data = ub ']' (removeStrayBraces "e^\x7bi").data :=
  stray_brace_balanced_of_no_trailing_escape.1 "e^\x7bi" (by decide)

/-- C5 counterexample: on the input `\x7b\` the repair appends a `\x7d`
directly after the trailing backslash, producing `\x7b\\x7d`, whose
*unescaped* open count is 1 but whose unescaped close count is 0 — the
appended close became escaped, so the repaired string is not balanced
by the code's own unescaped-count metric. -/
theorem stray_brace_escape_cex :
    removeStrayBraces "\x7b\\" = "\x7b\\\x7d" ∧
    ub '{' (removeStrayBraces "\x7b\\").data ≠ ub '}' (removeStrayBraces "\x7b\\").data :=
  ⟨by decide, by decide⟩

/-! ## Supporting lemmas: the line-break expansion -/

/-- A character absent from a list yields no escaped occurrences. -/
lemma cntEsc_not_mem_aux (d : Char) :
    ∀ (n : Nat) (m : List Char), m.length ≤ n → d ∉ m → cntEsc d m = 0 := by
  intro n
  induction n with
  | zero =>
    intro m hm _
    have hnil : m = [] := List.length_eq_zero.mp (Nat.le_zero.mp hm)
    subst hnil
    rfl
  | succ k ih =>
    intro m hm hd
    match m with
    | [] => rfl
    | [x] => rfl
    | x :: y :: rest =>
      by_cases hxy : (x = '\\' && y = d) = true
      · exfalso
        simp only [Bool.and_eq_true, decide_eq_true_eq] at hxy
        exact hd (hxy.2 ▸ List.mem_cons_of_mem x (List.mem_cons_self y rest))
      · rw [cntEsc_cons_cons, if_neg hxy]
        exact ih (y :: rest) (by simp at hm ⊢; omega)
          (fun hmem => hd (List.mem_cons_of_mem x hmem))

lemma cntEsc_not_mem (d : Char) (m : List Char) (h : d ∉ m) : cntEsc d m = 0 :=
  cntEsc_not_mem_aux d m.length m le_rfl h

/-- A character absent from a list has unescaped count 0. -/
lemma ub_not_mem (d : Char) (u : List Char) (h : d ∉ u) : ub d u = 0 := by
  unfold ub
  rw [List.count_eq_zero.mpr h, cntEsc_not_mem d u h]
  rfl

/-- A pair already balanced by the unescaped metric is left alone. -/
lemma balanceOne_of_eq (o c : Char) (s : List Char) (h : ub o s = ub c s) :
    balanceOne o c s = s := by
  unfold balanceOne
  rw [if_neg (by omega), if_neg (by omega)]

/-- A string balanced in all three pairs passes through the repair
unchanged. -/
lemma removeStray_of_balanced (u : List Char)
    (hb : ub '{' u = ub '}' u) (hp : ub '(' u = ub ')' u) (hk : ub '[' u = ub ']' u) :
    removeStrayBraces (String.mk u) = String.mk u := by
  show String.mk (balanceOne '[' ']' (balanceOne '(' ')' (balanceOne '{' '}' u))) =
    String.mk u
  rw [balanceOne_of_eq '{' '}' u hb, balanceOne_of_eq '(' ')' u hp,
    balanceOne_of_eq '[' ']' u hk]

lemma replaceAux_nil (pat rep : List Char) (fuel : Nat) :
    replaceAux pat rep fuel [] = [] := by
  cases fuel <;> rfl

lemma replaceAux_fuel_zero (pat rep : List Char) (c : Char) (rest : List Char) :
    replaceAux pat rep 0 (c :: rest) = c :: rest := rfl

lemma replaceAux_cons_pos (pat rep : List Char) (f : Nat) (c : Char) (rest : List Char)
    (h : (pat.isPrefixOf (c :: rest) && !pat.isEmpty) = true) :
    replaceAux pat rep (f + 1) (c :: rest) =
      rep ++ replaceAux pat rep f (List.drop (pat.length - 1) rest) := by
  simp only [replaceAux, h, if_true]

lemma replaceAux_cons_neg (pat rep : List Char) (f : Nat) (c : Char) (rest : List Char)
    (h : (pat.isPrefixOf (c :: rest) && !pat.isEmpty) = false) :
    replaceAux pat rep (f + 1) (c :: rest) = c :: replaceAux pat rep f rest := by
  simp only [replaceAux, h, Bool.false_eq_true, if_false]

/-- The head of a line-break expansion is the escape character or a
character of the original fragment. -/
lemma replaceAux_head (fuel : Nat) (l : List Char) (y : Char) (ys : List Char)
    (h : replaceAux ("\\ ").data ("\\ #h(1cm) \\ ").data fuel l = y :: ys) :
    y = '\\' ∨ y ∈ l := by
  match fuel, l with
  | fuel, [] => rw [replaceAux_nil] at h; exact absurd h (by simp)
  | 0, c :: rest =>
    rw [replaceAux_fuel_zero, List.cons.injEq] at h
    exact Or.inr (by rw [← h.1]; exact List.mem_cons_self c rest)
  | f + 1, c :: rest =>
    cases hm : (("\\ ").data.isPrefixOf (c :: rest) && !("\\ ").data.isEmpty) with
    | true =>
      rw [replaceAux_cons_pos _ _ _ _ _ hm,
        show (("\\ #h(1cm) \\ " : String)).data = '\\' :: (" #h(1cm) \\ " : String).data
          from rfl,
        List.cons_append, List.cons.injEq] at h
      exact Or.inl h.1.symm
    | false =>
      rw [replaceAux_cons_neg _ _ _ _ _ hm, List.cons.injEq] at h
      exact Or.inr (by rw [← h.1]; exact List.mem_cons_self c rest)

/-- Structure of the line-break expansion of a delimiter-free fragment:
the opening and closing parentheses it introduces (from `#h(1cm)`) are
equinumerous and unescaped, and it introduces no braces or brackets. -/
lemma replace_linebreak_spec :
    ∀ (n fuel : Nat) (l : List Char), l.length ≤ n → l.length ≤ fuel →
      (∀ x ∈ l, isDelim x = false) →
      List.count '(' (replaceAux ("\\ ").data ("\\ #h(1cm) \\ ").data fuel l) =
        List.count ')' (replaceAux ("\\ ").data ("\\ #h(1cm) \\ ").data fuel l) ∧
      cntEsc '(' (replaceAux ("\\ ").data ("\\ #h(1cm) \\ ").data fuel l) = 0 ∧
      cntEsc ')' (replaceAux ("\\ ").data ("\\ #h(1cm) \\ ").data fuel l) = 0 ∧
      '{' ∉ replaceAux ("\\ ").data ("\\ #h(1cm) \\ ").data fuel l ∧
      '}' ∉ replaceAux ("\\ ").data ("\\ #h(1cm) \\ ").data fuel l ∧
      '[' ∉ replaceAux ("\\ ").data ("\\ #h(1cm) \\ ").data fuel l ∧
      ']' ∉ replaceAux ("\\ ").data ("\\ #h(1cm) \\ ").data fuel l := by
  intro n
  induction n with
  | zero =>
    intro fuel l hn _ _
    have hnil : l = [] := List.length_eq_zero.mp (Nat.le_zero.mp hn)
    subst hnil
    rw [replaceAux_nil]
    simp
  | succ k ih =>
    intro fuel l hn hfuel hfree
    match l with
    | [] => rw [replaceAux_nil]; simp
    | c :: rest =>
      have hnotmem : ∀ d : Char, isDelim d = true → d ∉ (c :: rest) := by
        intro d hd hmem
        rw [hfree d hmem] at hd
        exact Bool.false_ne_true hd
      cases fuel with
      | zero => simp at hfuel
      | succ f =>
        cases hm : (("\\ ").data.isPrefixOf (c :: rest) && !("\\ ").data.isEmpty) with
        | true =>
          rw [replaceAux_cons_pos _ _ _ _ _ hm]
          have hlen : (List.drop (("\\ ").data.length - 1) rest).length ≤ k := by
            simp at hn ⊢
            omega
          have hlenf : (List.drop (("\\ ").data.length - 1) rest).length ≤ f := by
            simp at hfuel ⊢
            omega
          have hfree2 : ∀ x ∈ List.drop (("\\ ").data.length - 1) rest, isDelim x = false :=
            fun x hx => hfree x (List.mem_cons_of_mem c (List.mem_of_mem_drop hx))
          obtain ⟨ihc, ihe1, ihe2, ihm1, ihm2, ihm3, ihm4⟩ := ih f _ hlen hlenf hfree2
          have hreplast : (("\\ #h(1cm) \\ " : String)).data.getLast? ≠ some '\\' := by
            decide
          refine ⟨?_, ?_, ?_, ?_, ?_, ?_, ?_⟩
          · rw [List.count_append, List.count_append, ihc,
              show List.count '(' (("\\ #h(1cm) \\ " : String)).data =
                List.count ')' (("\\ #h(1cm) \\ " : String)).data from by decide]
          · rw [cntEsc_append '(' _ _ hreplast, ihe1,
              show cntEsc '(' (("\\ #h(1cm) \\ " : String)).data = 0 from by decide]
          · rw [cntEsc_append ')' _ _ hreplast, ihe2,
              show cntEsc ')' (("\\ #h(1cm) \\ " : String)).data = 0 from by decide]
          · intro hmem
            rcases List.mem_append.mp hmem with hr | hv
            · exact (show '{' ∉ (("\\ #h(1cm) \\ " : String)).data from by decide) hr
            · exact ihm1 hv
          · intro hmem
            rcases List.mem_append.mp hmem with hr | hv
            · exact (show '}' ∉ (("\\ #h(1cm) \\ " : String)).data from by decide) hr
            · exact ihm2 hv
          · intro hmem
            rcases List.mem_append.mp hmem with hr | hv
            · exact (show '[' ∉ (("\\ #h(1cm) \\ " : String)).data from by decide) hr
            · exact ihm3 hv
          · intro hmem
            rcases List.mem_append.mp hmem with hr | hv
            · exact (show ']' ∉ (("\\ #h(1cm) \\ " : String)).data from by decide) hr
            · exact ihm4 hv
        | false =>
          rw [replaceAux_cons_neg _ _ _ _ _ hm]
          have hlen : rest.length ≤ k := by simp at hn; omega
          have hlenf : rest.length ≤ f := by simp at hfuel; omega
          have hfree2 : ∀ x ∈ rest, isDelim x = false :=
            fun x hx => hfree x (List.mem_cons_of_mem c hx)
          obtain ⟨ihc, ihe1, ihe2, ihm1, ihm2, ihm3, ihm4⟩ := ih f rest hlen hlenf hfree2
          have hcdelim := hfree c (List.mem_cons_self c rest)
          have hcne : ∀ d : Char, isDelim d = true → c ≠ d := by
            intro d hd he
            rw [he, hd] at hcdelim
            exact absurd hcdelim (by decide)
          have hcntesc : ∀ d : Char, isDelim d = true →
              cntEsc d (replaceAux ("\\ ").data ("\\ #h(1cm) \\ ").data f rest) = 0 →
              cntEsc d (c :: replaceAux ("\\ ").data ("\\ #h(1cm) \\ ").data f rest) = 0 := by
            intro d hd hv0
            cases hv : replaceAux ("\\ ").data ("\\ #h(1cm) \\ ").data f rest with
            | nil => rfl
            | cons y ys =>
              have hy := replaceAux_head f rest y ys hv
              have hyne : y ≠ d := by
                rcases hy with hy | hy
                · intro he
                  rw [← he] at hd
                  subst hy
                  simp [isDelim] at hd
                · intro he
                  have h5 := hfree y (List.mem_cons_of_mem c hy)
                  rw [he, hd] at h5
                  exact absurd h5 (by decide)
              rw [cntEsc_cons_cons, if_neg (by simp [hyne])]
              rw [← hv]
              exact hv0
          have hmemcons : ∀ d : Char, isDelim d = true →
              d ∉ replaceAux ("\\ ").data ("\\ #h(1cm) \\ ").data f rest →
              d ∉ c :: replaceAux ("\\ ").data ("\\ #h(1cm) \\ ").data f rest := by
            intro d hd hv0 hmem
            rcases List.mem_cons.mp hmem with he | hv
            · exact hcne d hd he.symm
            · exact hv0 hv
          refine ⟨?_, ?_, ?_, ?_, ?_, ?_, ?_⟩
          · rw [List.count_cons, List.count_cons, ihc,
              if_neg (by simpa using hcne '(' (by decide)),
              if_neg (by simpa using hcne ')' (by decide))]
          · exact hcntesc '(' (by decide) ihe1
          · exact hcntesc ')' (by decide) ihe2
          · exact hmemcons '{' (by decide) ihm1
          · exact hmemcons '}' (by decide) ihm2
          · exact hmemcons '[' (by decide) ihm3
          · exact hmemcons ']' (by decide) ihm4
lemma pyStartsWith_append (s t p : String) (h : pyStartsWith s p = true) :
    pyStartsWith (s ++ t) p = true := by
  unfold pyStartsWith at h ⊢
  rw [String.data_append]
  exact List.isPrefixOf_iff_prefix.mpr
    ((List.isPrefixOf_iff_prefix.mp h).trans (List.prefix_append _ _))

/-- Core of the line-break claim: on a delimiter-free fragment starting
with the line-break token, the expansion passes the delimiter repair
unchanged and starts with the token followed by the inserted spacing. -/
lemma line_break_core (t : String)
    (hstart : pyStartsWith t "\\ " = true)
    (hfree : ∀ x ∈ t.data, isDelim x = false) :
    pyStartsWith (removeStrayBraces (replaceAllStr t "\\ " "\\ #h(1cm) \\ "))
      "\\ #h(1cm) \\ " = true := by
  obtain ⟨ihc, ihe1, ihe2, ihm1, ihm2, ihm3, ihm4⟩ :=
    replace_linebreak_spec t.data.length t.data.length t.data le_rfl le_rfl hfree
  have hb : ub '{' (replaceAux ("\\ ").data ("\\ #h(1cm) \\ ").data t.data.length t.data) =
      ub '}' (replaceAux ("\\ ").data ("\\ #h(1cm) \\ ").data t.data.length t.data) := by
    rw [ub_not_mem _ _ ihm1, ub_not_mem _ _ ihm2]
  have hp : ub '(' (replaceAux ("\\ ").data ("\\ #h(1cm) \\ ").data t.data.length t.data) =
      ub ')' (replaceAux ("\\ ").data ("\\ #h(1cm) \\ ").data t.data.length t.data) := by
    unfold ub
    rw [ihc, ihe1, ihe2]
  have hk : ub '[' (replaceAux ("\\ ").data ("\\ #h(1cm) \\ ").data t.data.length t.data) =
      ub ']' (replaceAux ("\\ ").data ("\\ #h(1cm) \\ ").data t.data.length t.data) := by
    rw [ub_not_mem _ _ ihm3, ub_not_mem _ _ ihm4]
  have hrs : removeStrayBraces (replaceAllStr t "\\ " "\\ #h(1cm) \\ ") =
      replaceAllStr t "\\ " "\\ #h(1cm) \\ " :=
    removeStray_of_balanced _ hb hp hk
  rw [hrs]
  obtain ⟨rest, hrest⟩ : ∃ rest, t.data = '\\' :: ' ' :: rest := by
    unfold pyStartsWith at hstart
    obtain ⟨tail, htail⟩ := List.isPrefixOf_iff_prefix.mp hstart
    exact ⟨tail, by rw [← htail]; rfl⟩
  show (("\\ #h(1cm) \\ " : String)).data.isPrefixOf
      (replaceAux ("\\ ").data ("\\ #h(1cm) \\ ").data t.data.length t.data) = true
  rw [hrest]
  simp only [List.length_cons]
  have hcond : ((("\\ " : String)).data.isPrefixOf ('\\' :: ' ' :: rest) &&
      !(("\\ " : String)).data.isEmpty) = true := by
    rw [show (("\\ " : String)).data = ['\\', ' '] from rfl]
    simp [List.isPrefixOf]
  rw [replaceAux_cons_pos _ _ _ _ _ hcond]
  exact List.isPrefixOf_iff_prefix.mpr (List.prefix_append _ _)

/-! ## Claim theorems: line-break handling -/

/-- C8 (amended): for every already-stripped, delimiter-free fragment
beginning with the explicit line-break token `\ `, the normalizer's
output begins with that token followed by the inserted spacing
`#h(1cm)` and a further line-break token.  The rest of the fragment is
*not* otherwise left unchanged: the same insertion is applied to every
occurrence of the token (see the counterexample). -/
theorem line_break_spacing_inserted (s : String)
    (hstart : pyStartsWith s "\\ " = true)
    (hstrip : stripStr s = s)
    (hfree : ∀ x ∈ s.data, isDelim x = false) :
    pyStartsWith (modifySpecialStrings s) "\\ #h(1cm) \\ " = true := by
  obtain ⟨rest, hrest⟩ : ∃ rest, s.data = '\\' :: ' ' :: rest := by
    unfold pyStartsWith at hstart
    obtain ⟨tail, htail⟩ := List.isPrefixOf_iff_prefix.mp hstart
    exact ⟨tail, by rw [← htail]; rfl⟩
  have hsne : s ≠ "" := by
    intro he
    rw [he] at hrest
    exact absurd hrest (by simp)
  cases hF : (s = "overline" || s = "overline\x7b" || s = "sqrt" || s = "sqrt(" ||
      pyEndsWith s "_" || pyEndsWith s "^" || pyEndsWith s "dot") with
  | false =>
    have hms : modifySpecialStrings s =
        removeStrayBraces (replaceAllStr s "\\ " "\\ #h(1cm) \\ ") := by
      simp only [modifySpecialStrings, hstrip, hF, Bool.false_eq_true, if_false,
        if_neg hsne, hstart, if_true]
    rw [hms]
    exact line_break_core s hstart hfree
  | true =>
    have hne2 : s ++ " " ≠ "" := by
      intro he
      have h2 := congrArg String.data he
      rw [String.data_append, hrest] at h2
      exact absurd h2 (by simp)
    have hstart2 : pyStartsWith (s ++ " ") "\\ " = true :=
      pyStartsWith_append s " " "\\ " hstart
    have hfree2 : ∀ x ∈ (s ++ " ").data, isDelim x = false := by
      intro x hx
      rw [String.data_append] at hx
      rcases List.mem_append.mp hx with hx | hx
      · exact hfree x hx
      · rw [show ((" " : String)).data = [' '] from rfl] at hx
        rw [List.mem_singleton.mp hx]
        decide
    have hms : modifySpecialStrings s =
        removeStrayBraces (replaceAllStr (s ++ " ") "\\ " "\\ #h(1cm) \\ ") := by
      simp only [modifySpecialStrings, hstrip, hF, if_true, if_neg hne2, hstart2]
    rw [hms]
    exact line_break_core (s ++ " ") hstart2 hfree2

/-- Witness for `line_break_spacing_inserted` at the fragment
`\ a \ b`. -/
theorem line_break_spacing_witness :
    pyStartsWith (modifySpecialStrings "\\ a \\ b") "\\ #h(1cm) \\ " = true :=
  line_break_spacing_inserted "\\ a \\ b" (by decide) (by decide) (by decide)

/-- C8 counterexample: for the fragment `\ a \ b`, the normalizer
expands *every* occurrence of the line-break token, so the rest of the
fragment after the leading token, `a \ b`, does not occur in the output
at all — the rest is not left unchanged. -/
theorem line_break_rest_changed_cex :
    modifySpecialStrings "\\ a \\ b" = "\\ #h(1cm) \\ a \\ #h(1cm) \\ b" ∧
    containsSub ("a \\ b").data (modifySpecialStrings "\\ a \\ b").data = false :=
  ⟨by decide, by decide⟩

end TypstMobject
